import Mathlib

/-!
Verification of the chapter-acquisition pipeline of `wildbow_epub_gen`
(`src/main.rs`).  Rust `String`s are modelled as their UTF-8 byte
sequences (`List Nat`, each element < 256), which matches the byte-based
offsets the `regex` crate and `String::replace_range` operate on.
-/

/-- UTF-8 encoding of a single character, as byte values. -/
def utf8Enc (c : Char) : List Nat :=
  let n := c.toNat
  if n < 128 then [n]
  else if n < 2048 then [192 + n / 64, 128 + n % 64]
  else if n < 65536 then [224 + n / 4096, 128 + (n / 64) % 64, 128 + n % 64]
  else [240 + n / 262144, 128 + (n / 4096) % 64, 128 + (n / 64) % 64, 128 + n % 64]

/-- The UTF-8 bytes of a string literal; used to transcribe the Rust literals. -/
def strB (s : String) : List Nat := s.data.flatMap utf8Enc

/-! ## The e-mail de-obfuscator (`fix_emails`, src/main.rs lines 167-188)

The Rust function uses two regexes:
  outer: `<a ([^>]+?)>\[email&nbsp;protected]</a>`
  inner: `data-cfemail="(\S+?)"`
Both are modelled byte-exactly below.  For the outer pattern, since `[^>]`
cannot cross a `>` byte, a leftmost match at a position is: the literal
`<a `, then a non-empty maximal run of non-`>` bytes (the capture), then
`>`, then the 26-byte literal `[email&nbsp;protected]</a>`.  `captures_iter`
yields non-overlapping leftmost matches, resuming after each match end.
The model treats the regex class `\s` as the ASCII whitespace bytes; the
`regex` crate's `\s` also covers non-ASCII Unicode whitespace, which never
occurs in the attribute regions any claim is about. -/

/-- Bytes of the outer-pattern opening literal `<a `. -/
def openTagB : List Nat := strB "<a "

/-- Bytes of the outer-pattern closing literal `[email&nbsp;protected]</a>` (26 bytes). -/
def litTailB : List Nat := strB "[email&nbsp;protected]</a>"

/-- Bytes of the inner-pattern literal `data-cfemail="` (14 bytes). -/
def dataLitB : List Nat := strB "data-cfemail=\""

/-- ASCII whitespace bytes, as matched by the regex class `\s`. -/
def isWSB (b : Nat) : Bool := b = 32 || b = 9 || b = 10 || b = 11 || b = 12 || b = 13

/-- Attempt to match the outer regex `<a ([^>]+?)>\[email&nbsp;protected]</a>` at
the start of `s`.  On success, returns the capture (the attribute region) and
the remainder of the input after the whole match. -/
def matchAt (s : List Nat) : Option (List Nat × List Nat) :=
  if openTagB.isPrefixOf s then
    let z := s.drop 3
    let attrs := z.takeWhile (fun b => b != 62)
    if attrs.isEmpty then none
    else
      match z.dropWhile (fun b => b != 62) with
      | _ :: r3 => if litTailB.isPrefixOf r3 then some (attrs, r3.drop 26) else none
      | [] => none
  else none

/-- The lazy capture `(\S+?)"`: the shortest non-empty run of non-whitespace
bytes that is immediately followed by a `"` byte (34). -/
def capNonWS : List Nat → Option (List Nat)
  | [] => none
  | a :: rest =>
    if isWSB a then none
    else if rest.head? = some 34 then some [a]
    else
      match capNonWS rest with
      | some d => some (a :: d)
      | none => none

/-- Search for the inner regex `data-cfemail="(\S+?)"` in an attribute
region, returning the capture of the leftmost match (the Rust code's
`email_data.captures(attrs)`). -/
def emailData : List Nat → Option (List Nat)
  | [] => none
  | a :: rest =>
    if dataLitB.isPrefixOf (a :: rest) then
      match capNonWS ((a :: rest).drop 14) with
      | some d => some d
      | none => emailData rest
    else emailData rest

/-- Value of one hex digit byte (`hex::decode` accepts both cases). -/
def hexVal (b : Nat) : Option Nat :=
  if 48 ≤ b ∧ b ≤ 57 then some (b - 48)
  else if 97 ≤ b ∧ b ≤ 102 then some (b - 87)
  else if 65 ≤ b ∧ b ≤ 70 then some (b - 55)
  else none

/-- `hex::decode`: fails on odd length or any non-hex-digit byte. -/
def hexDecode : List Nat → Option (List Nat)
  | [] => some []
  | [_] => none
  | a :: b :: rest =>
    match hexVal a, hexVal b, hexDecode rest with
    | some x, some y, some r => some ((16 * x + y) :: r)
    | _, _, _ => none

/-- Is `b` a UTF-8 continuation byte? -/
def isContB (b : Nat) : Bool := 128 ≤ b && b ≤ 191

/-- Strict UTF-8 validity of a byte sequence, as checked by Rust's
`str::from_utf8` (rejects overlong forms, surrogates and values above
`U+10FFFF`). -/
def isValidUtf8 : List Nat → Bool
  | [] => true
  | b :: rest =>
    if b ≤ 127 then isValidUtf8 rest
    else if 194 ≤ b && b ≤ 223 then
      match rest with
      | c1 :: r => isContB c1 && isValidUtf8 r
      | [] => false
    else if b = 224 then
      match rest with
      | c1 :: c2 :: r => (160 ≤ c1 && c1 ≤ 191) && isContB c2 && isValidUtf8 r
      | _ => false
    else if (225 ≤ b && b ≤ 236) || b = 238 || b = 239 then
      match rest with
      | c1 :: c2 :: r => isContB c1 && isContB c2 && isValidUtf8 r
      | _ => false
    else if b = 237 then
      match rest with
      | c1 :: c2 :: r => (128 ≤ c1 && c1 ≤ 159) && isContB c2 && isValidUtf8 r
      | _ => false
    else if b = 240 then
      match rest with
      | c1 :: c2 :: c3 :: r => (144 ≤ c1 && c1 ≤ 191) && isContB c2 && isContB c3 && isValidUtf8 r
      | _ => false
    else if 241 ≤ b && b ≤ 243 then
      match rest with
      | c1 :: c2 :: c3 :: r => isContB c1 && isContB c2 && isContB c3 && isValidUtf8 r
      | _ => false
    else if b = 244 then
      match rest with
      | c1 :: c2 :: c3 :: r => (128 ≤ c1 && c1 ≤ 143) && isContB c2 && isContB c3 && isValidUtf8 r
      | _ => false
    else false

/-- The XOR-decoded plaintext bytes of a `data-cfemail` payload:
`bytes[i] XOR bytes[0]` for `i = 1..`. -/
def xorTail (key : Nat) (tail : List Nat) : List Nat := tail.map (fun b => b ^^^ key)

/-- One pass of `fix_emails`, scanning left to right with explicit fuel
(one unit per input byte suffices, since each step consumes at least one
byte).  `none` models a panic of the Rust code: `captures(attrs).unwrap()`
when a matched anchor has no `data-cfemail`, `hex::decode(..).unwrap()`,
`bytes[0]` on an empty payload, and `from_utf8(..).unwrap()`.  The Rust
code applies the replacements from the last match to the first via
`replace_range`; on non-overlapping matches this equals the left-to-right
segment rebuild performed here (the spec notes this equivalence in §4.4). -/
def fixEmailsGo : Nat → List Nat → Option (List Nat)
  | _, [] => some []
  | 0, _ :: _ => none
  | fuel + 1, c :: cs =>
    match matchAt (c :: cs) with
    | some (attrs, rest) =>
      match emailData attrs with
      | none => none
      | some d =>
        match hexDecode d with
        | none => none
        | some [] => none
        | some (key :: tail) =>
          if isValidUtf8 (xorTail key tail) then
            match fixEmailsGo fuel rest with
            | some out => some (xorTail key tail ++ out)
            | none => none
          else none
    | none =>
      match fixEmailsGo fuel cs with
      | some out => some (c :: out)
      | none => none

/-- The `fix_emails` function of src/main.rs: `some` is the returned
string, `none` is a panic. -/
def fixEmails (s : List Nat) : Option (List Nat) := fixEmailsGo s.length s

/-- Does the outer regex match anywhere in `s`? (`captures_iter` non-empty). -/
def hasMatchB : List Nat → Bool
  | [] => false
  | c :: cs => (matchAt (c :: cs)).isSome || hasMatchB cs

/-- Lowercase hex digit byte of a value below 16. -/
def hexDigitB (n : Nat) : Nat := if n < 10 then 48 + n else 87 + n

/-- Lowercase hex encoding `hex(B)` of a byte sequence, as byte values. -/
def hexOf : List Nat → List Nat
  | [] => []
  | b :: rest => hexDigitB (b / 16) :: hexDigitB (b % 16) :: hexOf rest

/-- The obfuscated-anchor pattern with `hx` embedded as the `data-cfemail`
value: `<a data-cfemail="{hx}">[email&nbsp;protected]</a>`. -/
def cfAnchor (hx : List Nat) : List Nat :=
  strB "<a data-cfemail=\"" ++ hx ++ strB "\">[email&nbsp;protected]</a>"

/-- The `data-cfemail` capture (`email_data.captures(attrs)`) of each outer
match, in the order the scan of `fix_emails` encounters them. -/
def matchDatas : Nat → List Nat → List (Option (List Nat))
  | _, [] => []
  | 0, _ :: _ => []
  | fuel + 1, c :: cs =>
    match matchAt (c :: cs) with
    | some (attrs, rest) => emailData attrs :: matchDatas fuel rest
    | none => matchDatas fuel cs

/-- A well-formed `data-cfemail` payload: even-length hex (a successful
`hex::decode`) yielding at least 2 bytes whose XOR-decoded tail is valid
UTF-8. -/
def goodData (d : List Nat) : Bool :=
  match hexDecode d with
  | some (key :: b2 :: tl) => isValidUtf8 (xorTail key (b2 :: tl))
  | _ => false

/-- `goodData` lifted over the optional capture result. -/
def goodOptData : Option (List Nat) → Bool
  | none => false
  | some d => goodData d

/-! ## The `Chapter` data model and the chapter extractor

The HTTP fetch and the HTML parser (`reqwest`, `scraper`) are external
collaborators; a fetched-and-parsed chapter page is modelled by the
results of the only selector queries `get_chapter` performs on it:
the first text node of the first `.entry-title` element (if any), and
the serialized HTML of the `p`-selector matches inside the first
`.entry-content` element (if any). -/

/-- The `Chapter` struct of src/main.rs. -/
structure Chapter where
  name : List Nat
  link : List Nat
  content : List Nat
deriving DecidableEq, Repr

/-- `Chapter::new` (src/main.rs lines 19-25): prepends `https://` whenever the
link does not start with `http`. -/
def chapterNew (name link : List Nat) : Chapter :=
  { name := name
    link := if !(strB "http").isPrefixOf link then strB "https://" ++ link else link
    content := [] }

/-- Outcome of a fallible call: `ok`/`err` are the Rust `Result` arms,
`panicked` models a panic (`unwrap`/`expect` failure) that aborts the
process. -/
inductive FetchOutcome (α : Type) where
  | ok (val : α)
  | err (msg : List Nat)
  | panicked
deriving DecidableEq, Repr

/-- A fetched chapter page, abstracted to the selector results `get_chapter`
consumes.  `entryTitle = some t` means a `.entry-title` element exists and
`t` is the first element of its text-node iterator (`none` when the element
has no text node).  `entryContent = some ps` means a `.entry-content` element
exists and `ps` lists the serialized HTML (`e.html()`) of its `p`-selector
matches in document order. -/
structure ChapterPage where
  entryTitle : Option (Option (List Nat))
  entryContent : Option (List (List Nat))
deriving DecidableEq, Repr

/-- Bytes of the EN-DASH `–` that `get_chapter` replaces by `-`. -/
def enDashB : List Nat := strB "–"

/-- `str::replace`, on bytes: replace all non-overlapping occurrences of
`pat`, left to right (fuel = input length; each step consumes a byte). -/
def replaceAllGo (pat rep : List Nat) : Nat → List Nat → List Nat
  | _, [] => []
  | 0, s => s
  | fuel + 1, c :: cs =>
    if pat.isPrefixOf (c :: cs) then rep ++ replaceAllGo pat rep fuel ((c :: cs).drop pat.length)
    else c :: replaceAllGo pat rep fuel cs

/-- `str::replace` on byte strings. -/
def replaceAllB (pat rep s : List Nat) : List Nat := replaceAllGo pat rep s.length s

/-- The soft-failure string `"Could not retrieve chapter {title} from: {url}."`. -/
def errMsgB (name link : List Nat) : List Nat :=
  strB "Could not retrieve chapter " ++ name ++ strB " from: " ++ link ++ strB "."

/-- `format!("<h1>{}</h1>", name)`. -/
def h1B (name : List Nat) : List Nat := strB "<h1>" ++ name ++ strB "</h1>"

/-- The butterfly separator pushed onto every extracted chapter body. -/
def bfSep : List Nat := strB "<br /><hr /><br /><h1><center>🦋</center></h1>"

/-- The title-update step of `get_chapter` (src/main.rs lines 110-112):
if a `.entry-title` element exists, the chapter name becomes its first
text node with `–` replaced by `-`; `ch_name.text().next().unwrap()`
panics (`none`) when that element has no text node. -/
def chapterTitle (ch : Chapter) (page : ChapterPage) : Option (List Nat) :=
  match page.entryTitle with
  | some none => none
  | some (some t) => some (replaceAllB enDashB (strB "-") t)
  | none => some ch.name

/-- `get_chapter` (src/main.rs lines 107-139) on an already fetched and
parsed page.  Missing `.entry-content` is the soft failure: the error
string becomes the content and the chapter is returned `ok`.  Otherwise
the `p` matches are serialized, the first is skipped (`skip(1)`), the
last is popped, the butterfly separator is pushed, the parts are joined
with the empty separator and run through `fix_emails`, and the content
is `<h1>{name}</h1>` followed by the transformed body.  The `err` arm
(a `reqwest` failure) is outside this model, whose input is the fetched
page. -/
def getChapter (ch : Chapter) (page : ChapterPage) : FetchOutcome Chapter :=
  match chapterTitle ch page with
  | none => .panicked
  | some name =>
    match page.entryContent with
    | none => .ok { name := name, link := ch.link, content := errMsgB name ch.link }
    | some ps =>
      match fixEmails (((ps.drop 1).dropLast ++ [bfSep]).flatten) with
      | none => .panicked
      | some fixed => .ok { name := name, link := ch.link, content := h1B name ++ fixed }

/-! ## The TOC parser (`get_chapter_list`, src/main.rs lines 141-165) -/

/-- An `<a>` element inside the TOC's `.entry-content`: its optional `href`
attribute and its concatenated text (`l.text().collect::<String>()`). -/
structure TocAnchor where
  href : Option (List Nat)
  text : List Nat
deriving DecidableEq, Repr

/-- A fetched TOC page, abstracted to the selector results
`get_chapter_list` consumes: `entryContent = some anchors` lists the `a`
matches inside the first `.entry-content` element, in document order. -/
structure TocPage where
  entryContent : Option (List TocAnchor)
deriving DecidableEq, Repr

/-- `get_chapter_list` on an already fetched and parsed TOC page.
`entry_content.next().unwrap()` panics when no `.entry-content` exists;
anchors without `href` are skipped (`filter_map`); an `href` starting
with `/` is prefixed with the site root, and the result goes through
`Chapter::new`. -/
def getChapterList (root : List Nat) (page : TocPage) : FetchOutcome (List Chapter) :=
  match page.entryContent with
  | none => .panicked
  | some anchors =>
    .ok (anchors.filterMap fun a =>
      a.href.map fun h =>
        chapterNew a.text (if (strB "/").isPrefixOf h then root ++ h else h))

/-! ## The EPUB assembly loop (src/main.rs lines 80-93)

The `epub_builder` crate is an external collaborator; whether
`add_content` accepts a chapter is abstracted by the oracle `addOk`.
The Rust loop runs `if let Ok(chapter) = c` over the outcome sequence
(skipping `Err` results) and calls
`epub.add_content(..).expect("Couldn't add chapter: ..")`, so a rejected
addition panics.  `some l` is the list of chapters added, `none` a panic. -/
def addChapters (addOk : Chapter → Bool) : List (FetchOutcome Chapter) → Option (List Chapter)
  | [] => some []
  | .ok ch :: rest =>
    if addOk ch then
      match addChapters addOk rest with
      | some l => some (ch :: l)
      | none => none
    else none
  | .err _ :: rest => addChapters addOk rest
  | .panicked :: rest => addChapters addOk rest

/-! ## The bounded fetch scheduler

The program builds one future per chapter and runs
`stream::iter(handles).buffered(num_threads)` (src/main.rs lines 42-51),
collecting the yielded values in order.  `buffered` belongs to the
`futures` crate, outside this repository.

Modelled from the spec: §4.5/§5 describe the missing scheduler as a
bounded window of at most `N` in-flight tasks, admitted from the input
queue in input order; as tasks complete (in any order, chosen here by
the schedule `σ`), completed results are emitted through a reordering
buffer keyed by input index, so that outputs appear in input order.
The in-flight window is a list in input order of `(result, completed)`
pairs; the reordering buffer is the completed-but-not-yet-front part. -/

/-- Admit tasks from the input queue, in input order, until the in-flight
window holds `N` tasks or the queue is empty.  A newly admitted task for
input `a` will produce `f a` when it completes. -/
def fillWindow (N : Nat) (f : α → β) : List α → List (β × Bool) → List α × List (β × Bool)
  | [], infl => ([], infl)
  | a :: rest, infl =>
    if infl.length < N then fillWindow N f rest (infl ++ [(f a, false)])
    else (a :: rest, infl)

/-- Number of in-flight tasks that have not completed yet. -/
def incompleteCount (l : List (β × Bool)) : Nat := (l.filter (fun e => !e.2)).length

/-- Mark the `k`-th incomplete in-flight task as completed (the completion
event chosen by the schedule). -/
def completeNth : Nat → List (β × Bool) → List (β × Bool)
  | _, [] => []
  | k, (b, c) :: rest =>
    if c then (b, c) :: completeNth k rest
    else
      match k with
      | 0 => (b, true) :: rest
      | k2 + 1 => (b, false) :: completeNth k2 rest

/-- Emit the completed prefix of the in-flight window: the next output is
yielded exactly when the task with the least input index has completed. -/
def emitReady : List (β × Bool) → List β × List (β × Bool)
  | [] => ([], [])
  | (b, c) :: rest =>
    if c then
      let p := emitReady rest
      (b :: p.1, p.2)
    else ([], (b, c) :: rest)

/-- One scheduler run: fill the window, stop when nothing is in flight,
otherwise let the schedule `σ` pick one incomplete task to complete,
emit the completed prefix, and continue.  Each loop turn completes
exactly one task, so `inputs.length + 1` fuel always suffices. -/
def schedLoop (N : Nat) (f : α → β) (σ : Nat → Nat) : Nat → Nat → List α → List (β × Bool) → List β
  | 0, _, _, _ => []
  | fuel + 1, t, pending, infl =>
    let fp := fillWindow N f pending infl
    if fp.2.isEmpty then []
    else
      let i2 := completeNth (σ t % incompleteCount fp.2) fp.2
      let er := emitReady i2
      er.1 ++ schedLoop N f σ fuel (t + 1) fp.1 er.2

/-- The bounded fetch scheduler: run `f` over `inputs` with concurrency
bound `N` under completion schedule `σ`, collecting outputs in emission
order. -/
def schedule (N : Nat) (f : α → β) (σ : Nat → Nat) (inputs : List α) : List β :=
  schedLoop N f σ (inputs.length + 1) 0 inputs []

/-- Invariant of the in-flight window between loop turns: if it is
non-empty, its front task has not completed (a completed front would have
been emitted). -/
def headOk : List (β × Bool) → Prop
  | [] => True
  | (_, c) :: _ => c = false

/-- A constant fetch oracle used by the scheduler witness. -/
def constPages : Chapter → ChapterPage := fun _ => ⟨none, none⟩

/-! ## Scheduler lemmas -/

theorem headOk_append (infl : List (β × Bool)) (b : β) (h : headOk infl) :
    headOk (infl ++ [(b, false)]) := by
  cases infl with
  | nil => rfl
  | cons x xs => exact h

theorem fillWindow_map (N : Nat) (f : α → β) :
    ∀ (pending : List α) (infl : List (β × Bool)),
      (fillWindow N f pending infl).2.map Prod.fst ++ (fillWindow N f pending infl).1.map f
        = infl.map Prod.fst ++ pending.map f
  | [], infl => by simp [fillWindow]
  | a :: rest, infl => by
    by_cases h : infl.length < N
    · simp only [fillWindow, if_pos h]
      rw [fillWindow_map N f rest (infl ++ [(f a, false)])]
      simp
    · simp [fillWindow, if_neg h]

theorem fillWindow_count (N : Nat) (f : α → β) :
    ∀ (pending : List α) (infl : List (β × Bool)),
      (fillWindow N f pending infl).1.length + incompleteCount (fillWindow N f pending infl).2
        = pending.length + incompleteCount infl
  | [], infl => by simp [fillWindow]
  | a :: rest, infl => by
    by_cases h : infl.length < N
    · simp only [fillWindow, if_pos h]
      rw [fillWindow_count N f rest (infl ++ [(f a, false)])]
      simp [incompleteCount, List.filter_append]
      omega
    · simp [fillWindow, if_neg h]

theorem fillWindow_headOk (N : Nat) (f : α → β) :
    ∀ (pending : List α) (infl : List (β × Bool)),
      headOk infl → headOk (fillWindow N f pending infl).2
  | [], infl, h => by simpa [fillWindow] using h
  | a :: rest, infl, h => by
    by_cases hl : infl.length < N
    · simp only [fillWindow, if_pos hl]
      exact fillWindow_headOk N f rest _ (headOk_append infl (f a) h)
    · simpa [fillWindow, if_neg hl] using h

theorem fillWindow_stop (N : Nat) (f : α → β) :
    ∀ (pending : List α) (infl : List (β × Bool)),
      (fillWindow N f pending infl).1 ≠ [] → N ≤ (fillWindow N f pending infl).2.length
  | [], infl, h => by simp [fillWindow] at h
  | a :: rest, infl, h => by
    by_cases hl : infl.length < N
    · simp only [fillWindow, if_pos hl] at h ⊢
      exact fillWindow_stop N f rest _ h
    · simp only [fillWindow, if_neg hl]
      omega

theorem completeNth_map : ∀ (k : Nat) (l : List (β × Bool)),
    (completeNth k l).map Prod.fst = l.map Prod.fst
  | _, [] => rfl
  | k, (b, true) :: rest => by simp [completeNth, completeNth_map k rest]
  | 0, (b, false) :: rest => by simp [completeNth]
  | k + 1, (b, false) :: rest => by simp [completeNth, completeNth_map k rest]

theorem incompleteCount_cons (b : β) (c : Bool) (l : List (β × Bool)) :
    incompleteCount ((b, c) :: l) = (bif c then 0 else 1) + incompleteCount l := by
  cases c with
  | false =>
    simp [incompleteCount]
    omega
  | true => simp [incompleteCount]

theorem completeNth_count : ∀ (k : Nat) (l : List (β × Bool)),
    k < incompleteCount l → incompleteCount (completeNth k l) + 1 = incompleteCount l
  | _, [], h => by simp [incompleteCount] at h
  | k, (b, true) :: rest, h => by
    have h2 : k < incompleteCount rest := by simpa [incompleteCount_cons] using h
    have := completeNth_count k rest h2
    simp only [completeNth, if_pos rfl, incompleteCount_cons]
    simpa [incompleteCount_cons] using this
  | 0, (b, false) :: rest, h => by
    simp [completeNth, incompleteCount_cons]
    omega
  | k + 1, (b, false) :: rest, h => by
    have h2 : k < incompleteCount rest := by
      simp [incompleteCount_cons] at h
      omega
    have := completeNth_count k rest h2
    simp only [completeNth, if_neg (Bool.false_ne_true), incompleteCount_cons]
    simp only [incompleteCount_cons] at *
    omega

theorem emitReady_map : ∀ l : List (β × Bool),
    (emitReady l).1 ++ (emitReady l).2.map Prod.fst = l.map Prod.fst
  | [] => rfl
  | (b, true) :: rest => by simp [emitReady, emitReady_map rest]
  | (b, false) :: rest => by simp [emitReady]

theorem emitReady_count : ∀ l : List (β × Bool),
    incompleteCount (emitReady l).2 = incompleteCount l
  | [] => rfl
  | (b, true) :: rest => by simp [emitReady, incompleteCount] at *; simpa using emitReady_count rest
  | (b, false) :: rest => by simp [emitReady]

theorem emitReady_headOk : ∀ l : List (β × Bool), headOk (emitReady l).2
  | [] => trivial
  | (b, true) :: rest => by simp only [emitReady, if_pos]; exact emitReady_headOk rest
  | (b, false) :: rest => by simp [emitReady, headOk]

theorem headOk_count (l : List (β × Bool)) (h1 : headOk l) (h2 : l ≠ []) :
    1 ≤ incompleteCount l := by
  cases l with
  | nil => exact absurd rfl h2
  | cons x xs =>
    obtain ⟨b, c⟩ := x
    have : c = false := h1
    subst this
    simp [incompleteCount]

theorem schedLoop_eq (N : Nat) (f : α → β) (σ : Nat → Nat) (hN : 1 ≤ N) :
    ∀ (fuel t : Nat) (pending : List α) (infl : List (β × Bool)),
      headOk infl →
      pending.length + incompleteCount infl + 1 ≤ fuel →
      schedLoop N f σ fuel t pending infl = infl.map Prod.fst ++ pending.map f
  | 0, _, _, _, _, hf => by omega
  | fuel + 1, t, pending, infl, hh, hf => by
    by_cases he : (fillWindow N f pending infl).2.isEmpty
    · have h2 : (fillWindow N f pending infl).2 = [] := by simpa using he
      have h1 : (fillWindow N f pending infl).1 = [] := by
        by_contra hne
        have := fillWindow_stop N f pending infl hne
        rw [h2] at this
        simp at this
        omega
      have hm := fillWindow_map N f pending infl
      rw [h1, h2] at hm
      simp at hm
      obtain ⟨hp, hi⟩ := hm
      subst hp
      subst hi
      simp [schedLoop, fillWindow]
    · have hne : (fillWindow N f pending infl).2 ≠ [] := by
        intro hc
        rw [hc] at he
        exact he rfl
      have hho : headOk (fillWindow N f pending infl).2 := fillWindow_headOk N f pending infl hh
      have hcnt : 1 ≤ incompleteCount (fillWindow N f pending infl).2 := headOk_count _ hho hne
      have hk : σ t % incompleteCount (fillWindow N f pending infl).2
          < incompleteCount (fillWindow N f pending infl).2 := Nat.mod_lt _ (by omega)
      have hcc := completeNth_count (σ t % incompleteCount (fillWindow N f pending infl).2)
        (fillWindow N f pending infl).2 hk
      have hec := emitReady_count
        (completeNth (σ t % incompleteCount (fillWindow N f pending infl).2) (fillWindow N f pending infl).2)
      have hfc := fillWindow_count N f pending infl
      have hIH := schedLoop_eq N f σ hN fuel (t + 1) (fillWindow N f pending infl).1
        (emitReady (completeNth (σ t % incompleteCount (fillWindow N f pending infl).2)
          (fillWindow N f pending infl).2)).2
        (emitReady_headOk _) (by omega)
      simp only [schedLoop, if_neg he]
      rw [hIH, ← List.append_assoc, emitReady_map, completeNth_map]
      exact fillWindow_map N f pending infl

/-- C1: for every input sequence of chapters and every concurrency bound
`N ≥ 1`, the scheduler's output sequence equals the input mapped through
the chapter extractor — same length, and the i-th output is the extractor's
outcome on the i-th input chapter — regardless of the completion schedule
`σ`.  (`pages` is the fetch oracle giving each chapter's page.) -/
theorem scheduler_preserves_order (chapters : List Chapter) (pages : Chapter → ChapterPage)
    (N : Nat) (σ : Nat → Nat) (hN : 1 ≤ N) :
    schedule N (fun ch => getChapter ch (pages ch)) σ chapters
        = chapters.map (fun ch => getChapter ch (pages ch)) ∧
      (schedule N (fun ch => getChapter ch (pages ch)) σ chapters).length = chapters.length := by
  have h := schedLoop_eq N (fun ch => getChapter ch (pages ch)) σ hN
    (chapters.length + 1) 0 chapters [] trivial (by simp [incompleteCount])
  unfold schedule
  rw [h]
  simp

/-! ## Byte-string prefix helpers -/

theorem prefB_iff (p l : List Nat) : p.isPrefixOf l = true ↔ p <+: l :=
  List.isPrefixOf_iff_prefix

theorem prefB_take (p l : List Nat) : p <+: l ↔ p = l.take p.length :=
  List.prefix_iff_eq_take

theorem prefB_app (l t : List Nat) : l <+: l ++ t :=
  List.prefix_append l t

theorem prefB_app_right (p l t : List Nat) (h : p.isPrefixOf l = true) :
    p.isPrefixOf (l ++ t) = true :=
  (prefB_iff p (l ++ t)).mpr (((prefB_iff p l).mp h).trans (prefB_app l t))

/-- A byte string cannot start with both `http://` and `https://`. -/
theorem http_https_exclusive (l : List Nat)
    (h1 : (strB "http://").isPrefixOf l = true)
    (h2 : (strB "https://").isPrefixOf l = true) : False := by
  have e1 : strB "http://" = l.take 7 := by
    have h := (prefB_take _ l).mp ((prefB_iff _ l).mp h1)
    have hl : (strB "http://").length = 7 := by decide
    rwa [hl] at h
  have e2 : strB "https://" = l.take 8 := by
    have h := (prefB_take _ l).mp ((prefB_iff _ l).mp h2)
    have hl : (strB "https://").length = 8 := by decide
    rwa [hl] at h
  have e3 : l.take 7 = (l.take 8).take 7 := by
    rw [List.take_take]
    norm_num
  have : strB "http://" = (strB "https://").take 7 := by
    rw [e1, e3, ← e2]
  exact absurd this (by decide)

/-- Witness for C1 at a concrete input: two chapters, `N = 2`, a schedule
that completes the second fetch first. -/
theorem scheduler_preserves_order_witness :
    schedule 2 (fun ch => getChapter ch (constPages ch)) (fun t => t + 1)
        [chapterNew (strB "A") (strB "https://x/a"), chapterNew (strB "B") (strB "https://x/b")]
        = [chapterNew (strB "A") (strB "https://x/a"),
           chapterNew (strB "B") (strB "https://x/b")].map
            (fun ch => getChapter ch (constPages ch)) ∧
      (schedule 2 (fun ch => getChapter ch (constPages ch)) (fun t => t + 1)
        [chapterNew (strB "A") (strB "https://x/a"), chapterNew (strB "B") (strB "https://x/b")]).length
        = [chapterNew (strB "A") (strB "https://x/a"), chapterNew (strB "B") (strB "https://x/b")].length :=
  scheduler_preserves_order _ constPages 2 (fun t => t + 1) (by decide)

/-! ## Claims C4, C5, C8, C9 -/

/-- C4 counterexample: a page with no `.entry-content` whose `.entry-title`
element has no text node (concrete HTML: `<div class="entry-title"></div>`)
makes `get_chapter` panic at `ch_name.text().next().unwrap()`, so the
extractor does not return a successful result for every page lacking
`.entry-content`. -/
theorem soft_failure_counterexample :
    getChapter ⟨strB "Ch 2", strB "https://x/2", []⟩ ⟨some none, none⟩
      = FetchOutcome.panicked := by decide

/-- C4 (amended): if the chapter page has no `.entry-content` element and
the title step does not panic (any `.entry-title` element present has a
text node), `get_chapter` returns `Ok` and the returned content is the
literal string `Could not retrieve chapter {title} from: {url}.` built
from the (possibly updated) title and the url. -/
theorem soft_failure_inclusion (ch : Chapter) (page : ChapterPage) (name : List Nat)
    (ht : chapterTitle ch page = some name) (hc : page.entryContent = none) :
    getChapter ch page
      = .ok { name := name, link := ch.link, content := errMsgB name ch.link } := by
  unfold getChapter
  rw [ht, hc]

/-- Witness for C4 at a concrete input: a page with no `.entry-title` and no
`.entry-content`. -/
theorem soft_failure_inclusion_witness :
    getChapter ⟨strB "Ch 2", strB "https://x/2", []⟩ ⟨none, none⟩
      = .ok { name := strB "Ch 2", link := strB "https://x/2",
              content := errMsgB (strB "Ch 2") (strB "https://x/2") } :=
  soft_failure_inclusion ⟨strB "Ch 2", strB "https://x/2", []⟩ ⟨none, none⟩ (strB "Ch 2")
    (by decide) rfl

/-- C5 counterexample: an anchor whose href starts with `http` but not with
`http://` or `https://` is kept as-is by `Chapter::new`, so the produced
url starts with neither scheme. -/
theorem url_normalization_counterexample :
    getChapterList (strB "https://example.com")
        ⟨some [⟨some (strB "httpz.example/q"), strB "ch"⟩]⟩
        = .ok [⟨strB "ch", strB "httpz.example/q", []⟩] ∧
      (strB "http://").isPrefixOf (strB "httpz.example/q") = false ∧
      (strB "https://").isPrefixOf (strB "httpz.example/q") = false := by decide

/-- C5 (amended): provided the site root starts with `http://` or `https://`
and every anchor href that starts with `http` in fact starts with `http://`
or `https://`, every chapter url produced by the TOC parser satisfies
exactly one of: it starts with `http://`, or it starts with `https://`
(hrefs starting with `http` are kept as-is, hrefs starting with `/` become
`{root}{href}`, all other hrefs become `https://{href}`). -/
theorem url_normalization (root : List Nat) (page : TocPage) (anchors : List TocAnchor)
    (chs : List Chapter)
    (hroot : ((strB "http://").isPrefixOf root || (strB "https://").isPrefixOf root) = true)
    (hhref : anchors.all (fun a =>
        match a.href with
        | some h => !(strB "http").isPrefixOf h
            || (strB "http://").isPrefixOf h || (strB "https://").isPrefixOf h
        | none => true) = true)
    (hpage : page.entryContent = some anchors)
    (hres : getChapterList root page = .ok chs) :
    chs.all (fun ch =>
      ((strB "http://").isPrefixOf ch.link).xor ((strB "https://").isPrefixOf ch.link)) = true := by
  unfold getChapterList at hres
  rw [hpage] at hres
  simp only [FetchOutcome.ok.injEq] at hres
  subst hres
  rw [List.all_eq_true]
  intro ch hch
  obtain ⟨a, ha, heq⟩ := List.mem_filterMap.mp hch
  cases hh : a.href with
  | none => rw [hh] at heq; exact absurd heq (by simp)
  | some h =>
    rw [hh] at heq
    simp only [Option.map_some', Option.some.injEq] at heq
    have hA := List.all_eq_true.mp hhref a ha
    rw [hh] at hA
    have hlink : ch.link
        = (chapterNew a.text (if (strB "/").isPrefixOf h then root ++ h else h)).link := by
      rw [heq]
    by_cases hs : (strB "/").isPrefixOf h = true
    · -- site-root-relative href: url is root ++ href, scheme inherited from the root
      have hhttp : (strB "http").isPrefixOf (root ++ h) = true := by
        rcases Bool.or_eq_true _ _ |>.mp hroot with hr | hr
        · exact prefB_app_right _ _ _ ((prefB_iff _ root).mpr
            (((prefB_iff (strB "http") (strB "http://")).mp (by decide)).trans
              ((prefB_iff _ root).mp hr)))
        · exact prefB_app_right _ _ _ ((prefB_iff _ root).mpr
            (((prefB_iff (strB "http") (strB "https://")).mp (by decide)).trans
              ((prefB_iff _ root).mp hr)))
      have hl2 : ch.link = root ++ h := by
        rw [hlink, if_pos hs]
        unfold chapterNew
        simp [hhttp]
      rcases Bool.or_eq_true _ _ |>.mp hroot with hr | hr
      · have h1 : (strB "http://").isPrefixOf ch.link = true := by
          rw [hl2]; exact prefB_app_right _ _ _ hr
        have h2 : (strB "https://").isPrefixOf ch.link = false := by
          by_contra hc
          exact http_https_exclusive ch.link h1 (by simpa using hc)
        simp [hch, h1, h2]
      · have h1 : (strB "https://").isPrefixOf ch.link = true := by
          rw [hl2]; exact prefB_app_right _ _ _ hr
        have h2 : (strB "http://").isPrefixOf ch.link = false := by
          by_contra hc
          exact http_https_exclusive ch.link (by simpa using hc) h1
        simp [hch, h1, h2]
    · by_cases hp : (strB "http").isPrefixOf h = true
      · -- href kept as-is; by hypothesis it starts with a full scheme
        have hl2 : ch.link = h := by
          rw [hlink, if_neg hs]
          unfold chapterNew
          simp [hp]
        rw [hl2]
        simp only [hp, Bool.not_true, Bool.false_or] at hA
        rcases Bool.or_eq_true _ _ |>.mp hA with hr | hr
        · have h2 : (strB "https://").isPrefixOf h = false := by
            by_contra hc
            exact http_https_exclusive h hr (by simpa using hc)
          simp [hr, h2]
        · have h2 : (strB "http://").isPrefixOf h = false := by
            by_contra hc
            exact http_https_exclusive h (by simpa using hc) hr
          simp [hr, h2]
      · -- scheme-less href: `https://` is prepended
        have hl2 : ch.link = strB "https://" ++ h := by
          rw [hlink, if_neg hs]
          unfold chapterNew
          simp [hp]
        have h1 : (strB "https://").isPrefixOf ch.link = true := by
          rw [hl2]
          exact (prefB_iff _ _).mpr (prefB_app _ h)
        have h2 : (strB "http://").isPrefixOf ch.link = false := by
          by_contra hc
          exact http_https_exclusive ch.link (by simpa using hc) h1
        simp [h1, h2]

/-- Witness for C5 at a concrete input covering the three href shapes of
scenario S4: root-relative, absolute, and scheme-less. -/
theorem url_normalization_witness :
    ([chapterNew (strB "x") (strB "https://w.net" ++ strB "/x"),
      chapterNew (strB "y") (strB "https://y.example/z"),
      chapterNew (strB "q") (strB "w.example/q")].all (fun ch =>
        ((strB "http://").isPrefixOf ch.link).xor ((strB "https://").isPrefixOf ch.link))) = true :=
  url_normalization (strB "https://w.net")
    ⟨some [⟨some (strB "/x"), strB "x"⟩, ⟨some (strB "https://y.example/z"), strB "y"⟩,
           ⟨some (strB "w.example/q"), strB "q"⟩]⟩
    [⟨some (strB "/x"), strB "x"⟩, ⟨some (strB "https://y.example/z"), strB "y"⟩,
     ⟨some (strB "w.example/q"), strB "q"⟩]
    [chapterNew (strB "x") (strB "https://w.net" ++ strB "/x"),
     chapterNew (strB "y") (strB "https://y.example/z"),
     chapterNew (strB "q") (strB "w.example/q")]
    (by decide) (by decide) rfl (by decide)

/-- C8 counterexample: when the builder rejects the first chapter (oracle
`addOk` returns false for it), the assembly loop panics at
`.expect("Couldn't add chapter: ..")` — the run aborts (`none`) and the
second, acceptable chapter is never added, refuting "logs and continues". -/
theorem assembler_reject_counterexample :
    addChapters (fun ch => ch.name != strB "a")
      [.ok ⟨strB "a", strB "https://x/a", strB "b"⟩,
       .ok ⟨strB "c", strB "https://x/c", strB "d"⟩] = none := by decide

/-- C8 (amended): if the EPUB builder rejects the addition of one chapter's
content document, the assembly loop panics via `expect` and the run aborts;
the remaining chapters are not added (the rejection is fatal). -/
theorem assembler_reject_aborts (addOk : Chapter → Bool) (ch : Chapter)
    (rest : List (FetchOutcome Chapter)) (h : addOk ch = false) :
    addChapters addOk (.ok ch :: rest) = none := by
  simp [addChapters, h]

/-- Witness for C8 at a concrete input. -/
theorem assembler_reject_aborts_witness :
    addChapters (fun ch => ch.name != strB "a")
      (.ok ⟨strB "a", strB "https://x/a", strB "b"⟩ ::
        [.ok ⟨strB "c", strB "https://x/c", strB "d"⟩]) = none :=
  assembler_reject_aborts (fun ch => ch.name != strB "a")
    ⟨strB "a", strB "https://x/a", strB "b"⟩
    [.ok ⟨strB "c", strB "https://x/c", strB "d"⟩] (by decide)

/-- C9 counterexample: on a TOC page with no `.entry-content`, the parser
panics at `.next().unwrap()` — the outcome is `panicked`, not an `err`
result (and not a chapter list). -/
theorem toc_missing_counterexample :
    getChapterList (strB "https://x") ⟨none⟩ = FetchOutcome.panicked := by decide

/-- C9 (amended): if the fetched TOC page contains no element matching
`.entry-content`, `get_chapter_list` panics (fatal abort with the panic
diagnostic) rather than returning a chapter list or an error result. -/
theorem toc_missing_aborts (root : List Nat) (page : TocPage)
    (h : page.entryContent = none) :
    getChapterList root page = FetchOutcome.panicked := by
  unfold getChapterList
  rw [h]

/-- Witness for C9 at a concrete input. -/
theorem toc_missing_aborts_witness :
    getChapterList (strB "https://y") ⟨none⟩ = FetchOutcome.panicked :=
  toc_missing_aborts (strB "https://y") ⟨none⟩ rfl

/-! ## fix_emails machinery -/

theorem sufB_app (l t : List Nat) : l.isSuffixOf (t ++ l) = true :=
  List.isSuffixOf_iff_suffix.mpr ⟨t, rfl⟩

theorem takeWhile_app (p : Nat → Bool) : ∀ (xs : List Nat) (y : Nat) (ys : List Nat),
    (∀ x ∈ xs, p x = true) → p y = false →
    (xs ++ y :: ys).takeWhile p = xs
  | [], y, ys, _, hy => by simp [List.takeWhile_cons, hy]
  | x :: xs, y, ys, hall, hy => by
    have hx : p x = true := hall x (by simp)
    simp only [List.cons_append, List.takeWhile_cons, hx, if_true]
    rw [takeWhile_app p xs y ys (fun z hz => hall z (by simp [hz])) hy]

theorem dropWhile_app (p : Nat → Bool) : ∀ (xs : List Nat) (y : Nat) (ys : List Nat),
    (∀ x ∈ xs, p x = true) → p y = false →
    (xs ++ y :: ys).dropWhile p = y :: ys
  | [], y, ys, _, hy => by simp [List.dropWhile_cons, hy]
  | x :: xs, y, ys, hall, hy => by
    have hx : p x = true := hall x (by simp)
    simp only [List.cons_append, List.dropWhile_cons, hx, if_true]
    exact dropWhile_app p xs y ys (fun z hz => hall z (by simp [hz])) hy

/-- Evaluation of `matchAt` on a constructed outer-pattern instance. -/
theorem matchAt_mk (attrs t : List Nat) (h1 : attrs ≠ [])
    (h2 : ∀ b ∈ attrs, (b != 62) = true) :
    matchAt (openTagB ++ (attrs ++ 62 :: (litTailB ++ t))) = some (attrs, t) := by
  have hpre : openTagB.isPrefixOf (openTagB ++ (attrs ++ 62 :: (litTailB ++ t))) = true :=
    (prefB_iff _ _).mpr (prefB_app _ _)
  have hdrop : (openTagB ++ (attrs ++ 62 :: (litTailB ++ t))).drop 3 = attrs ++ 62 :: (litTailB ++ t) := by
    rw [show (3 : Nat) = openTagB.length from rfl, List.drop_left]
  have htw : (attrs ++ 62 :: (litTailB ++ t)).takeWhile (fun b => b != 62) = attrs :=
    takeWhile_app _ attrs 62 _ h2 (by decide)
  have hdw : (attrs ++ 62 :: (litTailB ++ t)).dropWhile (fun b => b != 62) = 62 :: (litTailB ++ t) :=
    dropWhile_app _ attrs 62 _ h2 (by decide)
  have hne : attrs.isEmpty = false := by
    cases attrs with
    | nil => exact absurd rfl h1
    | cons x xs => rfl
  have hlp : litTailB.isPrefixOf (litTailB ++ t) = true :=
    (prefB_iff _ _).mpr (prefB_app _ _)
  have hld : (litTailB ++ t).drop 26 = t := by
    rw [show (26 : Nat) = litTailB.length from rfl, List.drop_left]
  simp [matchAt, hpre, hdrop, htw, hdw, hne, hlp, hld]

/-- If the scan never matches, `fix_emails` is the identity. -/
theorem fixEmailsGo_nil (fuel : Nat) : fixEmailsGo fuel [] = some [] := by
  cases fuel <;> rfl

theorem fixEmailsGo_of_no_match : ∀ (fuel : Nat) (s : List Nat),
    hasMatchB s = false → s.length ≤ fuel → fixEmailsGo fuel s = some s
  | fuel, [], _, _ => fixEmailsGo_nil fuel
  | 0, c :: cs, _, hf => by simp at hf
  | fuel + 1, c :: cs, hm, hf => by
    have h1 : matchAt (c :: cs) = none := by
      cases h : matchAt (c :: cs) with
      | none => rfl
      | some v => rw [hasMatchB, h] at hm; simp at hm
    have h2 : hasMatchB cs = false := by
      rw [hasMatchB, h1] at hm
      simpa using hm
    have hlen : cs.length ≤ fuel := by
      simp only [List.length_cons] at hf
      omega
    simp only [fixEmailsGo, h1]
    rw [fixEmailsGo_of_no_match fuel cs h2 hlen]

/-- Structure of a successful `matchAt`: the remainder is what follows a
26-byte occurrence of the closing literal inside a suffix of the input,
and the whole match spans at least 30 bytes. -/
theorem matchAt_some (s attrs rest : List Nat) (h : matchAt s = some (attrs, rest)) :
    ∃ r3, litTailB.isPrefixOf r3 = true ∧ rest = r3.drop 26 ∧ r3 <:+ s ∧
      rest.length + 30 ≤ s.length := by
  simp only [matchAt] at h
  split at h
  case isTrue hpre =>
    split at h
    case isTrue => exact absurd h (by simp)
    case isFalse hne =>
      split at h
      case h_1 b r3 hdw =>
        split at h
        case isTrue hlit =>
          simp only [Option.some.injEq, Prod.mk.injEq] at h
          obtain ⟨ha, hr⟩ := h
          refine ⟨r3, hlit, hr.symm, ?_, ?_⟩
          · have hsz : s.drop 3 <:+ s := List.drop_suffix 3 s
            have hdz : b :: r3 <:+ s.drop 3 := by
              rw [← hdw]
              exact List.dropWhile_suffix _
            exact (( List.suffix_cons b r3).trans hdz).trans hsz
          · have hlen3 : 3 ≤ s.length := by
              have := ((prefB_iff _ _).mp hpre).length_le
              simpa using this
            have hsplit := List.takeWhile_append_dropWhile (fun x => x != 62) (s.drop 3)
            rw [hdw] at hsplit
            have hlensplit := congrArg List.length hsplit
            simp only [List.length_append, List.length_cons, List.length_drop] at hlensplit
            have h26 : 26 ≤ r3.length := by
              have := ((prefB_iff _ _).mp hlit).length_le
              have h26l : litTailB.length = 26 := by decide
              omega
            have hTW : 0 < ((s.drop 3).takeWhile (fun x => x != 62)).length := by
              rw [List.length_pos]
              intro hc
              rw [List.isEmpty_iff] at hne
              exact hne hc
            have hrl : rest.length = r3.length - 26 := by
              rw [← hr]
              simp
            omega
        case isFalse => exact absurd h (by simp)
      case h_2 => exact absurd h (by simp)
  case isFalse => exact absurd h (by simp)

theorem matchAt_length (s attrs rest : List Nat) (h : matchAt s = some (attrs, rest)) :
    rest.length < s.length := by
  obtain ⟨r3, _, _, _, hlen⟩ := matchAt_some s attrs rest h
  omega

/-! ## emailData and hex lemmas -/

theorem capNonWS_cons (a : Nat) (rest : List Nat) :
    capNonWS (a :: rest)
      = if isWSB a then none
        else if rest.head? = some 34 then some [a]
        else
          match capNonWS rest with
          | some d => some (a :: d)
          | none => none := by
  simp [capNonWS]

theorem capNonWS_exact : ∀ (hx ys : List Nat), hx ≠ [] →
    (∀ c ∈ hx, isWSB c = false ∧ c ≠ 34) →
    capNonWS (hx ++ 34 :: ys) = some hx
  | [], _, h1, _ => absurd rfl h1
  | [x], ys, _, h2 => by
    have hw := h2 x (by simp)
    simp [capNonWS, hw.1]
  | x :: y :: hx, ys, _, h2 => by
    have hwx := h2 x (by simp)
    have hy := h2 y (by simp)
    have ih := capNonWS_exact (y :: hx) ys (by simp) (fun c hc => h2 c (by simp [List.mem_cons] at hc ⊢; tauto))
    rw [show (x :: y :: hx) ++ 34 :: ys = x :: ((y :: hx) ++ 34 :: ys) from rfl]
    rw [capNonWS_cons, if_neg (by simp [hwx.1]), if_neg (by simp [hy.2]), ih]

theorem emailData_cons (a : Nat) (rest : List Nat) :
    emailData (a :: rest)
      = if dataLitB.isPrefixOf (a :: rest) then
          match capNonWS ((a :: rest).drop 14) with
          | some d => some d
          | none => emailData rest
        else emailData rest := by
  simp [emailData]

/-- Evaluation of `email_data.captures` on an attribute region that starts
with `data-cfemail="` followed by a quote-terminated non-whitespace value. -/
theorem emailData_exact (hx ys : List Nat) (h1 : hx ≠ [])
    (h2 : ∀ c ∈ hx, isWSB c = false ∧ c ≠ 34) :
    emailData (dataLitB ++ (hx ++ 34 :: ys)) = some hx := by
  have hcap : capNonWS (hx ++ 34 :: ys) = some hx := capNonWS_exact hx ys h1 h2
  cases hl : dataLitB ++ (hx ++ 34 :: ys) with
  | nil => simp [dataLitB, strB] at hl
  | cons a rest =>
    have hpre : dataLitB.isPrefixOf (a :: rest) = true := by
      rw [← hl]
      exact (prefB_iff _ _).mpr (prefB_app _ _)
    have hdrop : (a :: rest).drop 14 = hx ++ 34 :: ys := by
      rw [← hl, show (14 : Nat) = dataLitB.length from rfl, List.drop_left]
    rw [emailData_cons, if_pos hpre, hdrop, hcap]

theorem hexVal_hexDigitB (n : Nat) (h : n < 16) : hexVal (hexDigitB n) = some n := by
  rcases Nat.lt_or_ge n 10 with h10 | h10
  · rw [hexDigitB, if_pos h10, hexVal, if_pos (by omega)]
    simp only [Option.some.injEq]
    omega
  · rw [hexDigitB, if_neg (by omega), hexVal, if_neg (by omega), if_pos (by omega)]
    simp only [Option.some.injEq]
    omega

theorem hexDecode_hexOf : ∀ (B : List Nat), (∀ b ∈ B, b < 256) →
    hexDecode (hexOf B) = some B
  | [], _ => rfl
  | b :: rest, h => by
    have hb : b < 256 := h b (by simp)
    have ih := hexDecode_hexOf rest (fun x hx => h x (by simp [hx]))
    rw [hexOf]
    simp only [hexDecode]
    rw [hexVal_hexDigitB _ (by omega), hexVal_hexDigitB _ (by omega), ih]
    simp only [Option.some.injEq, List.cons.injEq]
    constructor
    · omega
    · trivial

/-- Every byte of a hex encoding is a decimal digit or a lowercase hex letter. -/
theorem hexOf_mem : ∀ (B : List Nat), (∀ b ∈ B, b < 256) →
    ∀ c ∈ hexOf B, (48 ≤ c ∧ c ≤ 57) ∨ (97 ≤ c ∧ c ≤ 102)
  | [], _, c, hc => absurd hc (by simp [hexOf])
  | b :: rest, h, c, hc => by
    have hb : b < 256 := h b (by simp)
    rw [hexOf] at hc
    simp only [List.mem_cons] at hc
    rcases hc with rfl | rfl | hc
    · rw [hexDigitB]
      split <;> omega
    · rw [hexDigitB]
      split <;> omega
    · exact hexOf_mem rest (fun x hx => h x (by simp [hx])) c hc

/-- Evaluation of one scan step of `fix_emails` at a successful match whose
capture and hex payload are known. -/
theorem fixEmailsGo_step (fuel : Nat) (s attrs rest d B : List Nat) (hs : s ≠ [])
    (hm : matchAt s = some (attrs, rest)) (he : emailData attrs = some d)
    (hd : hexDecode d = some B) :
    fixEmailsGo (fuel + 1) s =
      match B with
      | [] => none
      | key :: tail =>
        if isValidUtf8 (xorTail key tail) then
          match fixEmailsGo fuel rest with
          | some out => some (xorTail key tail ++ out)
          | none => none
        else none := by
  cases s with
  | nil => exact absurd rfl hs
  | cons c cs =>
    simp only [fixEmailsGo, hm, he, hd]
    cases B <;> rfl

/-! ## Claims C6 and C7 -/

set_option maxRecDepth 100000 in
/-- C6 counterexample: a payload whose XOR-decoded plaintext is itself an
obfuscated anchor (`<a data-cfemail="00">[email&nbsp;protected]</a>`, each
byte XORed with the key 0x01).  One application of the de-obfuscator yields
that fresh anchor; a second application decodes it further (to the empty
string), so `decode (decode s) ≠ decode s`. -/
theorem fix_emails_idem_counterexample :
    fixEmails (strB "<a data-cfemail=\"013d6021656075602c6267646c60686d3c233131233f5a646c60686d276f6372713a71736e7564627564655c3d2e603f\">[email&nbsp;protected]</a>")
        = some (strB "<a data-cfemail=\"00\">[email&nbsp;protected]</a>") ∧
      fixEmails (strB "<a data-cfemail=\"00\">[email&nbsp;protected]</a>") = some [] ∧
      (fixEmails (strB "<a data-cfemail=\"013d6021656075602c6267646c60686d3c233131233f5a646c60686d276f6372713a71736e7564627564655c3d2e603f\">[email&nbsp;protected]</a>")).bind fixEmails
        ≠ fixEmails (strB "<a data-cfemail=\"013d6021656075602c6267646c60686d3c233131233f5a646c60686d276f6372713a71736e7564627564655c3d2e603f\">[email&nbsp;protected]</a>") := by
  refine ⟨by decide, by decide, ?_⟩
  intro h
  rw [show fixEmails (strB "<a data-cfemail=\"013d6021656075602c6267646c60686d3c233131233f5a646c60686d276f6372713a71736e7564627564655c3d2e603f\">[email&nbsp;protected]</a>")
      = some (strB "<a data-cfemail=\"00\">[email&nbsp;protected]</a>") from by decide] at h
  rw [Option.some_bind] at h
  rw [show fixEmails (strB "<a data-cfemail=\"00\">[email&nbsp;protected]</a>") = some [] from by decide] at h
  exact absurd h (by decide)

/-- C6 (amended): the de-obfuscator is idempotent on every input whose
decoded output contains no further occurrence of the obfuscated-anchor
pattern; a fresh match can appear only when a payload decodes to an
obfuscated anchor, and then a second application decodes further. -/
theorem fix_emails_idempotent (s t : List Nat) (h1 : fixEmails s = some t)
    (h2 : hasMatchB t = false) :
    (fixEmails s).bind fixEmails = fixEmails s := by
  rw [h1, Option.some_bind]
  unfold fixEmails
  rw [fixEmailsGo_of_no_match t.length t h2 (le_refl _)]

/-- Witness for C6 at a concrete input holding one decodable anchor. -/
theorem fix_emails_idempotent_witness :
    (fixEmails (strB "<a class=\"x\" data-cfemail=\"2b484a\">[email&nbsp;protected]</a>")).bind fixEmails
      = fixEmails (strB "<a class=\"x\" data-cfemail=\"2b484a\">[email&nbsp;protected]</a>") :=
  fix_emails_idempotent _ (strB "ca") (by decide) (by decide)

/-- C7 counterexample: an occurrence of the outer anchor pattern with no
`data-cfemail` attribute makes `fix_emails` panic at
`email_data.captures(attrs).unwrap()` — the function does not return, so
the match is neither left unchanged nor returned at all. -/
theorem missing_cfemail_counterexample :
    fixEmails (strB "<a href=\"x\">[email&nbsp;protected]</a>") = none := by decide

/-- C7 (amended): any input that is an outer-pattern occurrence whose
attribute region (non-empty, free of `>`) contains no `data-cfemail`
match makes the e-mail de-obfuscator panic instead of returning. -/
theorem missing_cfemail_aborts (attrs : List Nat) (h1 : attrs ≠ [])
    (h2 : ∀ b ∈ attrs, (b != 62) = true) (h3 : emailData attrs = none) :
    fixEmails (openTagB ++ (attrs ++ 62 :: litTailB)) = none := by
  have hm : matchAt (openTagB ++ (attrs ++ 62 :: litTailB)) = some (attrs, []) := by
    have h := matchAt_mk attrs [] h1 h2
    simpa using h
  have hne : openTagB ++ (attrs ++ 62 :: litTailB) ≠ [] := by simp [openTagB, strB]
  have hlen : (openTagB ++ (attrs ++ 62 :: litTailB)).length
      = ((openTagB ++ (attrs ++ 62 :: litTailB)).length - 1) + 1 := by
    rcases List.length_pos.mpr hne with h
    omega
  unfold fixEmails
  rw [hlen]
  cases hs : openTagB ++ (attrs ++ 62 :: litTailB) with
  | nil => exact absurd hs hne
  | cons c cs =>
    rw [← hs]
    cases hl2 : openTagB ++ (attrs ++ 62 :: litTailB) with
    | nil => exact absurd hl2 hne
    | cons c2 cs2 =>
      simp only [fixEmailsGo, ← hl2, hm, h3]

/-- Witness for C7 at a concrete attribute region `href="x"`. -/
theorem missing_cfemail_aborts_witness :
    fixEmails (openTagB ++ (strB "href=\"x\"" ++ 62 :: litTailB)) = none :=
  missing_cfemail_aborts (strB "href=\"x\"") (by decide) (by decide) (by decide)

/-! ## Claim C3 -/

/-- C3: for any byte sequence `B` with at least 2 bytes (each a byte value,
and the XOR-decoded tail valid UTF-8, as required for the plaintext to be
"the UTF-8 string whose bytes are B[i] XOR B[0]"), embedding `hex(B)` as
the `data-cfemail` value inside the outer obfuscated-anchor pattern and
applying the de-obfuscator replaces the whole anchor with exactly the bytes
`B[i] XOR B[0]` for `i = 1..len(B)-1`, leaving no other bytes in the
output. -/
theorem fix_emails_decode_correct (B : List Nat) (h2 : 2 ≤ B.length)
    (hb : ∀ b ∈ B, b < 256)
    (hu : isValidUtf8 (xorTail (B.headD 0) B.tail) = true) :
    fixEmails (cfAnchor (hexOf B)) = some (xorTail (B.headD 0) B.tail) := by
  cases B with
  | nil => simp at h2
  | cons key tail =>
    simp only [List.headD_cons, List.tail_cons] at hu ⊢
    have hsh : cfAnchor (hexOf (key :: tail))
        = openTagB ++ ((dataLitB ++ (hexOf (key :: tail) ++ [34])) ++ 62 :: (litTailB ++ [])) := by
      have ha : strB "<a data-cfemail=\"" = openTagB ++ dataLitB := by decide
      have hc : strB "\">[email&nbsp;protected]</a>" = 34 :: 62 :: litTailB := by decide
      rw [cfAnchor, ha, hc]
      simp [List.append_assoc]
    have hdig := hexOf_mem (key :: tail) hb
    have hxne : hexOf (key :: tail) ≠ [] := by
      rw [hexOf]
      simp
    have hane : dataLitB ++ (hexOf (key :: tail) ++ [34]) ≠ [] := by
      simp [dataLitB, strB]
    have h62 : ∀ b ∈ dataLitB ++ (hexOf (key :: tail) ++ [34]), (b != 62) = true := by
      intro b hmem
      simp only [List.mem_append, List.mem_singleton] at hmem
      rcases hmem with hd | hx | h34
      · have hdl : ∀ b ∈ dataLitB, (b != 62) = true := by decide
        exact hdl b hd
      · have := hdig b hx
        simp only [bne_iff_ne, ne_eq]
        omega
      · subst h34
        decide
    have hm := matchAt_mk (dataLitB ++ (hexOf (key :: tail) ++ [34])) [] hane h62
    have hed : emailData (dataLitB ++ (hexOf (key :: tail) ++ [34]))
        = some (hexOf (key :: tail)) :=
      emailData_exact _ [] hxne (fun c hc => by
        have hr := hdig c hc
        refine ⟨?_, by omega⟩
        simp only [isWSB]
        simp only [Bool.or_eq_false_iff, decide_eq_false_iff_not]
        omega)
    have hhd : hexDecode (hexOf (key :: tail)) = some (key :: tail) :=
      hexDecode_hexOf _ hb
    have hsne : openTagB ++ ((dataLitB ++ (hexOf (key :: tail) ++ [34])) ++ 62 :: (litTailB ++ [])) ≠ [] := by
      simp [openTagB, strB]
    have hpos : 0 < (openTagB ++ ((dataLitB ++ (hexOf (key :: tail) ++ [34])) ++ 62 :: (litTailB ++ []))).length :=
      List.length_pos.mpr hsne
    rw [fixEmails, hsh]
    cases hs2 : openTagB ++ ((dataLitB ++ (hexOf (key :: tail) ++ [34])) ++ 62 :: (litTailB ++ [])) with
    | nil => exact absurd hs2 hsne
    | cons c cs =>
      rw [hs2] at hm
      simp only [List.length_cons]
      rw [fixEmailsGo_step cs.length (c :: cs) _ _ _ _ (by simp) hm hed hhd]
      simp [hu, fixEmailsGo_nil]

/-- Witness for C3 at the concrete payload `B = [0x2b, 0x48, 0x4a]`, which
decodes to the two bytes of `ca`. -/
theorem fix_emails_decode_correct_witness :
    fixEmails (cfAnchor (hexOf [43, 72, 74]))
      = some (xorTail ([43, 72, 74].headD 0) [43, 72, 74].tail) :=
  fix_emails_decode_correct [43, 72, 74] (by decide) (by decide) (by decide)

/-! ## Claim C10 -/

theorem fixEmailsGo_total : ∀ (fuel : Nat) (s : List Nat), s.length ≤ fuel →
    (matchDatas fuel s).all goodOptData = true → (fixEmailsGo fuel s).isSome = true
  | fuel, [], _, _ => by rw [fixEmailsGo_nil]; rfl
  | 0, c :: cs, hl, _ => by simp at hl
  | fuel + 1, c :: cs, hl, h => by
    cases hm : matchAt (c :: cs) with
    | none =>
      have hl2 : cs.length ≤ fuel := by
        simp only [List.length_cons] at hl
        omega
      simp only [matchDatas, hm] at h
      have ih := fixEmailsGo_total fuel cs hl2 h
      obtain ⟨out, hout⟩ := Option.isSome_iff_exists.mp ih
      simp only [fixEmailsGo, hm, hout]
      rfl
    | some p =>
      obtain ⟨attrs, rest⟩ := p
      simp only [matchDatas, hm, List.all_cons, Bool.and_eq_true] at h
      obtain ⟨hgood, hrest⟩ := h
      cases he : emailData attrs with
      | none =>
        rw [he] at hgood
        exact absurd hgood (by simp [goodOptData])
      | some d =>
        rw [he] at hgood
        simp only [goodOptData] at hgood
        cases hd : hexDecode d with
        | none => rw [goodData, hd] at hgood; exact absurd hgood (by simp)
        | some B =>
          rw [goodData, hd] at hgood
          match B, hgood with
          | key :: b2 :: tl, hgood =>
            have hvalid : isValidUtf8 (xorTail key (b2 :: tl)) = true := hgood
            have hrl : rest.length ≤ fuel := by
              have := matchAt_length _ _ _ hm
              simp only [List.length_cons] at this hl
              omega
            have ih := fixEmailsGo_total fuel rest hrl hrest
            obtain ⟨out, hout⟩ := Option.isSome_iff_exists.mp ih
            simp only [fixEmailsGo, hm, he, hd, hvalid, if_true, hout]
            rfl

/-- C10: the e-mail de-obfuscator returns normally (no panic) on every
input in which each matched obfuscated anchor carries a `data-cfemail`
capture that is even-length hex decoding to at least 2 bytes whose
XOR-decoded tail is valid UTF-8; under this precondition the hex-decode
and UTF-8-conversion panic branches are unreachable. -/
theorem fix_emails_total (s : List Nat)
    (h : (matchDatas s.length s).all goodOptData = true) :
    (fixEmails s).isSome = true :=
  fixEmailsGo_total s.length s (le_refl _) h

set_option maxRecDepth 100000 in
/-- Witness for C10 at the concrete S5 fixture input. -/
theorem fix_emails_total_witness :
    (fixEmails (strB "<a class=\"__cf_email__\" data-cfemail=\"54213b3a20273514393525393520327a373b39\">[email&nbsp;protected]</a>")).isSome = true :=
  fix_emails_total
    (strB "<a class=\"__cf_email__\" data-cfemail=\"54213b3a20273514393525393520327a373b39\">[email&nbsp;protected]</a>")
    (by decide)

/-! ## Claim C2: the butterfly separator survives fix_emails

No suffix of the butterfly separator is a prefix of the closing literal and
the closing literal occurs nowhere inside the separator, so no outer-pattern
match can extend into a trailing separator; `fix_emails` therefore maps any
`s ++ bfSep` to an output still ending in `bfSep`. -/

theorem bf_drop_no_lit : ∀ j < 49, litTailB.isPrefixOf (bfSep.drop j) = false := by decide

theorem bf_no_straddle : ∀ j < 26, ¬ litTailB.drop j = bfSep.take (26 - j) := by decide

/-- A suffix of `s ++ bfSep` that begins with the 26-byte closing literal
lies entirely before the separator: after the literal it still carries the
whole separator as a suffix. -/
theorem lit_suffix_split (s r3 : List Nat) (h : r3 <:+ (s ++ bfSep))
    (hp : litTailB <+: r3) : ∃ v, r3.drop 26 = v ++ bfSep := by
  obtain ⟨u, hu⟩ := h
  by_cases hc : u.length ≤ s.length
  · have hr : r3 = s.drop u.length ++ bfSep := by
      have h1 := congrArg (List.drop u.length) hu
      rw [List.drop_left] at h1
      rw [List.drop_append_eq_append_drop, Nat.sub_eq_zero_of_le hc, List.drop_zero] at h1
      exact h1
    by_cases h26 : 26 ≤ (s.drop u.length).length
    · refine ⟨(s.drop u.length).drop 26, ?_⟩
      rw [hr, List.drop_append_eq_append_drop, Nat.sub_eq_zero_of_le h26, List.drop_zero]
    · exfalso
      push_neg at h26
      have hlit : litTailB = s.drop u.length ++ bfSep.take (26 - (s.drop u.length).length) := by
        have h3 := (prefB_take litTailB r3).mp hp
        rw [show litTailB.length = 26 from by decide, hr,
          List.take_append_eq_append_take, List.take_of_length_le (by omega)] at h3
        exact h3
      have h4 := congrArg (List.drop (s.drop u.length).length) hlit
      rw [List.drop_left] at h4
      exact bf_no_straddle (s.drop u.length).length (by omega) h4
  · exfalso
    push_neg at hc
    have hr : r3 = bfSep.drop (u.length - s.length) := by
      have h1 := congrArg (List.drop u.length) hu
      rw [List.drop_left] at h1
      rw [List.drop_append_eq_append_drop, List.drop_eq_nil_of_le (by omega),
        List.nil_append] at h1
      exact h1
    have hbf48 : bfSep.length = 48 := by decide
    have hj : u.length - s.length < 49 := by
      by_contra hge
      push_neg at hge
      have hnil : bfSep.drop (u.length - s.length) = [] :=
        List.drop_eq_nil_of_le (by omega)
      rw [hnil] at hr
      have hle := hp.length_le
      rw [hr] at hle
      have h26 : litTailB.length = 26 := by decide
      rw [List.length_nil] at hle
      omega
    have hfalse := bf_drop_no_lit (u.length - s.length) hj
    rw [← hr] at hfalse
    exact absurd ((prefB_iff _ _).mpr hp) (by simp [hfalse])

/-- `fix_emails` preserves a trailing butterfly separator. -/
theorem fixEmailsGo_append_bf : ∀ (fuel : Nat) (s u : List Nat),
    (s ++ bfSep).length ≤ fuel → fixEmailsGo fuel (s ++ bfSep) = some u →
    ∃ v, u = v ++ bfSep
  | fuel, [], u, hf, h => by
    rw [List.nil_append] at h hf
    have hnm : hasMatchB bfSep = false := by decide
    rw [fixEmailsGo_of_no_match fuel bfSep hnm hf] at h
    simp only [Option.some.injEq] at h
    exact ⟨[], h.symm⟩
  | 0, c :: cs, u, hf, h => by
    simp at hf
  | fuel + 1, c :: cs, u, hf, h => by
    rw [List.cons_append] at h
    cases hm : matchAt (c :: (cs ++ bfSep)) with
    | none =>
      simp only [fixEmailsGo, hm] at h
      cases hrec : fixEmailsGo fuel (cs ++ bfSep) with
      | none => rw [hrec] at h; exact absurd h (by simp)
      | some u2 =>
        rw [hrec] at h
        have hf2 : (cs ++ bfSep).length ≤ fuel := by
          simp only [List.cons_append, List.length_cons] at hf
          omega
        obtain ⟨v, hv⟩ := fixEmailsGo_append_bf fuel cs u2 hf2 hrec
        simp only [Option.some.injEq] at h
        refine ⟨c :: v, ?_⟩
        rw [← h, hv, List.cons_append]
    | some p =>
      obtain ⟨attrs, rest⟩ := p
      obtain ⟨r3, hlit, hrest, hsuf, hlen⟩ := matchAt_some _ _ _ hm
      have hsuf2 : r3 <:+ (c :: cs) ++ bfSep := by rwa [List.cons_append]
      obtain ⟨v2, hv2⟩ := lit_suffix_split (c :: cs) r3 hsuf2 ((prefB_iff _ _).mp hlit)
      have hrest2 : rest = v2 ++ bfSep := by rw [hrest, hv2]
      have hf2 : (v2 ++ bfSep).length ≤ fuel := by
        have hre := congrArg List.length hrest2
        simp only [List.cons_append, List.length_cons] at hf hlen
        omega
      simp only [fixEmailsGo, hm] at h
      split at h
      next => exact absurd h (by simp)
      next d hd =>
        split at h
        next => exact absurd h (by simp)
        next => exact absurd h (by simp)
        next key tl hdec =>
          split at h
          next hval =>
            split at h
            next out hrec =>
              simp only [Option.some.injEq] at h
              rw [hrest2] at hrec
              obtain ⟨v3, hv3⟩ := fixEmailsGo_append_bf fuel v2 out hf2 hrec
              refine ⟨xorTail key tl ++ v3, ?_⟩
              rw [← h, hv3, ← List.append_assoc]
            next hrec => exact absurd h (by simp)
          next hval => exact absurd h (by simp)

/-- C2: whenever the chapter page has an `.entry-content` element and the
extractor returns a chapter, its content starts with `<h1>{title}</h1>`
(built from the possibly title-element-updated title) and ends with the
butterfly separator `<br /><hr /><br /><h1><center>🦋</center></h1>`. -/
theorem chapter_content_shape (ch : Chapter) (page : ChapterPage) (ps : List (List Nat))
    (ch2 : Chapter) (hc : page.entryContent = some ps)
    (hres : getChapter ch page = .ok ch2) :
    (h1B ch2.name).isPrefixOf ch2.content = true ∧ bfSep.isSuffixOf ch2.content = true := by
  unfold getChapter at hres
  cases ht : chapterTitle ch page with
  | none =>
    simp only [ht] at hres
    exact absurd hres (by simp)
  | some name =>
    simp only [ht, hc] at hres
    have hbody : ((ps.drop 1).dropLast ++ [bfSep]).flatten = (ps.drop 1).dropLast.flatten ++ bfSep := by
      rw [List.flatten_append]
      simp
    rw [hbody] at hres
    cases hf : fixEmails ((ps.drop 1).dropLast.flatten ++ bfSep) with
    | none =>
      simp only [hf] at hres
      exact absurd hres (by simp)
    | some fixed =>
      simp only [hf, FetchOutcome.ok.injEq] at hres
      obtain ⟨v, hv⟩ := fixEmailsGo_append_bf ((ps.drop 1).dropLast.flatten ++ bfSep).length
        (ps.drop 1).dropLast.flatten fixed (le_refl _) hf
      rw [← hres]
      constructor
      · exact (prefB_iff _ _).mpr (prefB_app _ _)
      · rw [hv, ← List.append_assoc]
        exact sufB_app bfSep (h1B name ++ v)

/-- Witness for C2 at a concrete page with three paragraphs (nav, body,
nav); the resulting content is `<h1>Ch</h1>` + the middle paragraph + the
separator. -/
theorem chapter_content_shape_witness :
    (h1B (strB "Ch")).isPrefixOf (h1B (strB "Ch") ++ (strB "<p>Hello</p>" ++ bfSep)) = true ∧
      bfSep.isSuffixOf (h1B (strB "Ch") ++ (strB "<p>Hello</p>" ++ bfSep)) = true :=
  chapter_content_shape ⟨strB "Ch", strB "https://x/1", []⟩
    ⟨none, some [strB "<p>nav</p>", strB "<p>Hello</p>", strB "<p>nav2</p>"]⟩
    [strB "<p>nav</p>", strB "<p>Hello</p>", strB "<p>nav2</p>"]
    ⟨strB "Ch", strB "https://x/1", h1B (strB "Ch") ++ (strB "<p>Hello</p>" ++ bfSep)⟩
    rfl (by decide)
